import Mathlib

/-!
# Verification of the xarm_ros2 planning client

Shallow embedding of `xarm_planner/xarm_planning_client.py`
(class `XArmPlanningClient`), covering the orbit trajectory generator
(`surround_and_lock`, `_compute_pose_on_circle`, `_gaze_at`,
`_compute_initial_angle`, `_normalize`), the pose lookup
(`get_current_pose`), and the camera-frame discovery loop of the
constructor.  Machine floats are modelled by real numbers; the external
transform service and the `/tf_static` feed are modelled as oracles
passed in as function arguments.
-/

open Real

namespace XArmPlanner

noncomputable section

/-- A 3-vector of reals, modelling a `numpy` array of length 3. -/
@[ext] structure Vec3 where
  x : ℝ
  y : ℝ
  z : ℝ

instance : Add Vec3 := ⟨fun a b => ⟨a.x + b.x, a.y + b.y, a.z + b.z⟩⟩

instance : Sub Vec3 := ⟨fun a b => ⟨a.x - b.x, a.y - b.y, a.z - b.z⟩⟩

instance : SMul ℝ Vec3 := ⟨fun t v => ⟨t * v.x, t * v.y, t * v.z⟩⟩

/-- Model of `np.dot` on 3-vectors. -/
def dot3 (a b : Vec3) : ℝ := a.x * b.x + a.y * b.y + a.z * b.z

/-- Model of `np.cross` on 3-vectors. -/
def cross3 (a b : Vec3) : Vec3 :=
  ⟨a.y * b.z - a.z * b.y, a.z * b.x - a.x * b.z, a.x * b.y - a.y * b.x⟩

/-- Model of `np.linalg.norm` on 3-vectors (Euclidean norm). -/
def norm3 (v : Vec3) : ℝ := sqrt (v.x ^ 2 + v.y ^ 2 + v.z ^ 2)

/-- Model of `XArmPlanningClient._normalize`: `v / np.linalg.norm(v)`. -/
def normalize3 (v : Vec3) : Vec3 := (1 / norm3 v) • v

/-- A quaternion in scipy's component order `(x, y, z, w)` (scalar last),
as produced by `Rotation.as_quat`. -/
@[ext] structure Quat where
  x : ℝ
  y : ℝ
  z : ℝ
  w : ℝ

/-- Hamilton product; scipy's `Rotation.__mul__` composes rotations so that
`(r1 * r2).apply v = r1.apply (r2.apply v)`, which on quaternions is this
product (see `qapplyRaw_qmul` below). -/
def qmul (p q : Quat) : Quat :=
  ⟨p.w * q.x + p.x * q.w + p.y * q.z - p.z * q.y,
   p.w * q.y - p.x * q.z + p.y * q.w + p.z * q.x,
   p.w * q.z + p.x * q.y - p.y * q.x + p.z * q.w,
   p.w * q.w - p.x * q.x - p.y * q.y - p.z * q.z⟩

def qconj (q : Quat) : Quat := ⟨-q.x, -q.y, -q.z, q.w⟩

def qnormSq (q : Quat) : ℝ := q.x ^ 2 + q.y ^ 2 + q.z ^ 2 + q.w ^ 2

instance : SMul ℝ Quat := ⟨fun t q => ⟨t * q.x, t * q.y, t * q.z, t * q.w⟩⟩

/-- Normalization to a unit quaternion, as scipy's `Rotation` stores and
`as_quat` returns. -/
def qnormalize (q : Quat) : Quat := (1 / sqrt (qnormSq q)) • q

/-- Embed a vector as a pure quaternion. -/
def pureQ (v : Vec3) : Quat := ⟨v.x, v.y, v.z, 0⟩

/-- Vector part of a quaternion. -/
def qvec (q : Quat) : Vec3 := ⟨q.x, q.y, q.z⟩

/-- Conjugation `q ⬝ v ⬝ conj q`: the rotation action scaled by `qnormSq q`. -/
def qapplyRaw (q : Quat) (v : Vec3) : Vec3 := qvec (qmul (qmul q (pureQ v)) (qconj q))

/-- Model of `Rotation.apply` for the rotation denoted by the (not necessarily unit)
quaternion `q`: conjugation divided by the squared norm.  Invariant under
rescaling `q`, so it is the same for `q` and `qnormalize q`. -/
def qapply (q : Quat) (v : Vec3) : Vec3 := (1 / qnormSq q) • qapplyRaw q v

/-- The vector `ref_forward` in `_gaze_at`: the camera initially points along +Z. -/
def refForward : Vec3 := ⟨0, 0, 1⟩

/-- Model of `scipy.spatial.transform.Rotation.align_vectors([a], [b])` for unit
vectors `a`, `b`: the shortest-arc rotation carrying `b` onto `a`, here as
the unnormalized quaternion `(b × a, 1 + a·b)`.  (`Rotation` stores the
normalized quaternion, which denotes the same rotation; the normalization
is applied where the code calls `as_quat`.) -/
def alignQuat (a b : Vec3) : Quat :=
  ⟨(cross3 b a).x, (cross3 b a).y, (cross3 b a).z, 1 + dot3 a b⟩

/-- Model of `XArmPlanningClient._gaze_at(center_point, ideal_camera_position, initial_y)`:
normalize the camera-to-target direction and align `ref_forward` onto it.
`initial_y` is accepted (default `[0, 1, 0]` at the call site) but never
used: every use of it in the source is commented out. -/
def gaze_at (center_point ideal_camera_position initial_y : Vec3) : Quat :=
  alignQuat (normalize3 (center_point - ideal_camera_position)) refForward

/-- Model of `scipy.spatial.transform.Rotation.from_euler('z', t)` as a quaternion. -/
def fromEulerZ (t : ℝ) : Quat := ⟨0, 0, sin (t / 2), cos (t / 2)⟩

/-- The roll-correction angle selected by the branch in
`_compute_pose_on_circle`:
`-(pi/2)*cos(angle)` when `angle <= pi`, else `(pi/2)*cos(angle) + pi`. -/
def rollOffset (angle : ℝ) : ℝ :=
  if angle ≤ π then -(π / 2) * cos angle else (π / 2) * cos angle + π

/-- Model of `math.atan2` (C convention; in particular `atan2 0 0 = 0`). -/
def atan2 (y x : ℝ) : ℝ :=
  if 0 < x then arctan (y / x)
  else if x < 0 then (if 0 ≤ y then arctan (y / x) + π else arctan (y / x) - π)
  else if 0 < y then π / 2
  else if y < 0 then -(π / 2)
  else 0

/-- A pose: position plus orientation quaternion (`geometry_msgs.msg.Pose`). -/
@[ext] structure Pose where
  position : Vec3
  orientation : Quat

/-- Model of `XArmPlanningClient._compute_initial_angle`: bearing of the initial
position seen from the center, in the XY plane. -/
def computeInitialAngle (initialPosition center : Vec3) : ℝ :=
  atan2 (initialPosition.y - center.y) (initialPosition.x - center.x)

/-- Model of `XArmPlanningClient._compute_pose_on_circle(center, angle)`, with the
session state `_circular_path_initial_position` / `_circular_path_angle_offset`
passed explicitly.  The branch on `angle <= pi` in the source selects the
euler angle fed to `Rotation.from_euler('z', ...)`, i.e. `fromEulerZ`
applied to `rollOffset angle`; `(rotation * offset).as_quat()` is the
normalized quaternion of the Hamilton product. -/
def computePoseOnCircle (initialPosition : Vec3) (angleOffset : ℝ) (center : Vec3)
    (angle : ℝ) : Pose :=
  let totalAngle := angleOffset + angle
  let radius := norm3 (initialPosition - center)
  let xp := center.x + radius * cos totalAngle
  let yp := center.y + radius * sin totalAngle
  let zp := initialPosition.z
  let cameraPosition : Vec3 := ⟨xp, yp, zp⟩
  let rotation := gaze_at center cameraPosition ⟨0, 1, 0⟩
  let offset := fromEulerZ (rollOffset angle)
  { position := cameraPosition, orientation := qnormalize (qmul rotation offset) }

/-- Python's `range(a, b)` over integers. -/
def intRange (a b : ℤ) : List ℤ :=
  (List.range (b - a).toNat).map (fun (k : ℕ) => a + (k : ℤ))

/-- Model of `XArmPlanningClient.surround_and_lock(center, num_waypoints)` after the
`get_current_pose` snapshot: the current pose of the camera link is passed
in as `initialPosition` / `initialOrientation` (the source stores them in
`_circular_path_initial_position` / `_circular_path_initial_orientation`;
the orientation is captured but never read by the waypoint computation).
The loop `for i in range(1, num_waypoints)` emits
`_compute_pose_on_circle(center, 2*pi*i/num_waypoints)` in order. -/
def surround_and_lock (initialPosition : Vec3) (initialOrientation : Quat)
    (center : Vec3) (numWaypoints : ℤ) : List Pose :=
  let angleOffset := computeInitialAngle initialPosition center
  (intRange 1 numWaypoints).map
    (fun (i : ℤ) => computePoseOnCircle initialPosition angleOffset center
      (2 * π * (i : ℝ) / (numWaypoints : ℝ)))

/-- A rigid transform as returned by the transform-lookup service
(`tf_buffer.lookup_transform(...).transform`). -/
@[ext] structure Transform where
  translation : Vec3
  rotation : Quat

/-- The value `moveit2.base_link_name`, fixed at construction. -/
def baseLinkName : String := "link_base"

/-- Model of `XArmPlanningClient.get_current_pose(frame)`: look up the transform with
target frame `base_link_name` and source frame `frame`, and copy its
translation and rotation componentwise into a `Pose`.  The lookup service is
an oracle `lookupTransform target source`. -/
def getCurrentPose (lookupTransform : String → String → Transform) (frame : String) : Pose :=
  let t := lookupTransform baseLinkName frame
  { position := ⟨t.translation.x, t.translation.y, t.translation.z⟩,
    orientation := ⟨t.rotation.x, t.rotation.y, t.rotation.z, t.rotation.w⟩ }

/-- The camera-frame discovery loop of `XArmPlanningClient.__init__`:
`camera_link` starts empty; while it is empty, if `counter <= 10000` the
constructor calls `_init_camera_link()` (another subscription attempt, after
which the `/tf_static` callback may have filled `camera_link`) and increments
`counter`, otherwise it warns and falls back to `'link_eef'`.  `polls n` is
the value of `camera_link` observed at the loop condition after `n`
attempts (the empty string meaning "not discovered yet").  Returns the final
`camera_link` together with the number of `_init_camera_link` calls made. -/
def cameraLinkLoop (polls : ℕ → String) (counter : ℕ) : String × ℕ :=
  if polls counter ≠ "" then (polls counter, counter)
  else if h : counter ≤ 10000 then cameraLinkLoop polls (counter + 1)
  else ("link_eef", counter)
termination_by 10001 - counter
decreasing_by omega

/-- The discovery loop as run by the constructor, starting at `counter = 0`. -/
def initCameraLink (polls : ℕ → String) : String × ℕ := cameraLinkLoop polls 0

end

/-! ## Componentwise descriptions of the vector operations -/

theorem Vec3.sub_def (a b : Vec3) : a - b = ⟨a.x - b.x, a.y - b.y, a.z - b.z⟩ := rfl

theorem vec3_smul_def (t : ℝ) (v : Vec3) : t • v = ⟨t * v.x, t * v.y, t * v.z⟩ := rfl

theorem quat_smul_def (t : ℝ) (q : Quat) : t • q = ⟨t * q.x, t * q.y, t * q.z, t * q.w⟩ := rfl

theorem norm3_nonneg (v : Vec3) : 0 ≤ norm3 v := sqrt_nonneg _

theorem sumSq_pos (a b : Vec3) (h : a ≠ b) :
    0 < (a.x - b.x) ^ 2 + (a.y - b.y) ^ 2 + (a.z - b.z) ^ 2 := by
  by_contra h0
  push_neg at h0
  apply h
  have hx : (a.x - b.x) ^ 2 = 0 :=
    le_antisymm (by nlinarith [sq_nonneg (a.y - b.y), sq_nonneg (a.z - b.z)]) (sq_nonneg _)
  have hy : (a.y - b.y) ^ 2 = 0 :=
    le_antisymm (by nlinarith [sq_nonneg (a.x - b.x), sq_nonneg (a.z - b.z)]) (sq_nonneg _)
  have hz : (a.z - b.z) ^ 2 = 0 :=
    le_antisymm (by nlinarith [sq_nonneg (a.x - b.x), sq_nonneg (a.y - b.y)]) (sq_nonneg _)
  ext
  · exact sub_eq_zero.mp (pow_eq_zero_iff two_ne_zero |>.mp hx)
  · exact sub_eq_zero.mp (pow_eq_zero_iff two_ne_zero |>.mp hy)
  · exact sub_eq_zero.mp (pow_eq_zero_iff two_ne_zero |>.mp hz)

theorem norm3_sq (v : Vec3) : (norm3 v) ^ 2 = v.x ^ 2 + v.y ^ 2 + v.z ^ 2 := by
  simp only [norm3]
  exact sq_sqrt (by positivity)

theorem norm3_pos (a b : Vec3) (h : a ≠ b) : 0 < norm3 (a - b) := by
  simp only [norm3, Vec3.sub_def]
  exact sqrt_pos.mpr (sumSq_pos a b h)

/-! ## Quaternion algebra -/

theorem qnormSq_nonneg (q : Quat) : 0 ≤ qnormSq q := by
  simp only [qnormSq]; positivity

theorem qnormSq_qmul (p q : Quat) : qnormSq (qmul p q) = qnormSq p * qnormSq q := by
  simp only [qnormSq, qmul]; ring

theorem qapplyRaw_qmul (p q : Quat) (v : Vec3) :
    qapplyRaw (qmul p q) v = qapplyRaw p (qapplyRaw q v) := by
  simp only [qapplyRaw, qmul, qconj, pureQ, qvec]
  ext <;> ring

theorem qapplyRaw_smul (t : ℝ) (q : Quat) (v : Vec3) :
    qapplyRaw (t • q) v = (t ^ 2) • qapplyRaw q v := by
  simp only [qapplyRaw, qmul, qconj, pureQ, qvec, quat_smul_def, vec3_smul_def]
  ext <;> ring

theorem qapplyRaw_smul_vec (q : Quat) (s : ℝ) (v : Vec3) :
    qapplyRaw q (s • v) = s • qapplyRaw q v := by
  simp only [qapplyRaw, qmul, qconj, pureQ, qvec, vec3_smul_def]
  ext <;> ring

theorem qnormSq_smul (t : ℝ) (q : Quat) : qnormSq (t • q) = t ^ 2 * qnormSq q := by
  simp only [qnormSq, quat_smul_def]; ring

theorem qapply_smul (t : ℝ) (ht : t ≠ 0) (q : Quat) (v : Vec3) :
    qapply (t • q) v = qapply q v := by
  simp only [qapply, qapplyRaw_smul, qnormSq_smul, vec3_smul_def]
  rcases eq_or_ne (qnormSq q) 0 with h0 | h0
  · simp [h0]
  · ext <;> (field_simp; ring)

theorem qapply_qnormalize (q : Quat) (hq : qnormSq q ≠ 0) (v : Vec3) :
    qapply (qnormalize q) v = qapply q v := by
  have h0 : 0 < qnormSq q := lt_of_le_of_ne (qnormSq_nonneg q) (Ne.symm hq)
  have hs : (0:ℝ) < sqrt (qnormSq q) := sqrt_pos.mpr h0
  exact qapply_smul _ (by positivity) q v

theorem qapply_qmul (p q : Quat) (v : Vec3) :
    qapply (qmul p q) v = qapply p (qapply q v) := by
  simp only [qapply, qnormSq_qmul, qapplyRaw_qmul]
  rw [qapplyRaw_smul_vec]
  ext <;> (simp only [vec3_smul_def, one_div, mul_inv]; ring)

/-! ## The gaze (shortest-arc) rotation and the roll about the local z axis -/

theorem qnormSq_alignQuat (d : Vec3) (hd : d.x ^ 2 + d.y ^ 2 + d.z ^ 2 = 1) :
    qnormSq (alignQuat d refForward) = 2 * (1 + d.z) := by
  simp only [qnormSq, alignQuat, cross3, dot3, refForward]
  linear_combination hd

theorem qapplyRaw_alignQuat (d : Vec3) (hd : d.x ^ 2 + d.y ^ 2 + d.z ^ 2 = 1) :
    qapplyRaw (alignQuat d refForward) refForward =
      qnormSq (alignQuat d refForward) • d := by
  simp only [qapplyRaw, alignQuat, cross3, dot3, refForward, qmul, qconj, pureQ, qvec,
    qnormSq, vec3_smul_def]
  ext
  · linear_combination (-d.x) * hd
  · linear_combination (-d.y) * hd
  · linear_combination (-(1 + d.z)) * hd

/-- The shortest-arc rotation does map the reference forward axis onto the
(unit, non-antipodal) direction `d`. -/
theorem qapply_alignQuat (d : Vec3) (hd : d.x ^ 2 + d.y ^ 2 + d.z ^ 2 = 1)
    (hz : d.z ≠ -1) : qapply (alignQuat d refForward) refForward = d := by
  have hne : (1:ℝ) + d.z ≠ 0 := fun h => hz (by linarith)
  rw [qapply, qapplyRaw_alignQuat d hd, qnormSq_alignQuat d hd]
  ext <;> (simp only [vec3_smul_def]; field_simp)

theorem qnormSq_fromEulerZ (t : ℝ) : qnormSq (fromEulerZ t) = 1 := by
  simp only [qnormSq, fromEulerZ]
  have h := sin_sq_add_cos_sq (t / 2)
  linear_combination h

/-- A rotation about the z axis fixes the reference forward axis `(0,0,1)`. -/
theorem qapply_fromEulerZ_refForward (t : ℝ) :
    qapply (fromEulerZ t) refForward = refForward := by
  have h := sin_sq_add_cos_sq (t / 2)
  rw [qapply, qnormSq_fromEulerZ]
  simp only [qapplyRaw, fromEulerZ, qmul, qconj, pureQ, qvec, refForward, vec3_smul_def]
  ext
  · simp only; ring
  · simp only; ring
  · simp only [one_div, inv_one, one_mul]; linear_combination h

/-- Core gaze-lock fact: the orientation built by `_compute_pose_on_circle`
(`(rotation * offset).as_quat()`, i.e. gaze rotation composed with the roll
correction) still carries the forward axis onto the unit direction `d`. -/
theorem qapply_gaze_roll (d : Vec3) (hd : d.x ^ 2 + d.y ^ 2 + d.z ^ 2 = 1)
    (hz : d.z ≠ -1) (t : ℝ) :
    qapply (qnormalize (qmul (alignQuat d refForward) (fromEulerZ t))) refForward = d := by
  have hne : (1:ℝ) + d.z ≠ 0 := fun h => hz (by linarith)
  have hA : qnormSq (alignQuat d refForward) ≠ 0 := by
    rw [qnormSq_alignQuat d hd]
    intro h; exact hne (by linarith)
  have hM : qnormSq (qmul (alignQuat d refForward) (fromEulerZ t)) ≠ 0 := by
    rw [qnormSq_qmul, qnormSq_fromEulerZ, mul_one]; exact hA
  rw [qapply_qnormalize _ hM, qapply_qmul, qapply_fromEulerZ_refForward,
    qapply_alignQuat d hd hz]

/-! ## The waypoints of the circular path -/

theorem intRange_length (a b : ℤ) : (intRange a b).length = (b - a).toNat := by
  rw [intRange, List.length_map, List.length_range]

theorem intRange_getElem? (a b : ℤ) (k : ℕ) (hk : k < (b - a).toNat) :
    (intRange a b)[k]? = some (a + (k : ℤ)) := by
  rw [intRange, List.getElem?_map, List.getElem?_range hk, Option.map_some']

theorem computePoseOnCircle_position (p0 : Vec3) (off : ℝ) (c : Vec3) (θ : ℝ) :
    (computePoseOnCircle p0 off c θ).position =
      ⟨c.x + norm3 (p0 - c) * cos (off + θ),
       c.y + norm3 (p0 - c) * sin (off + θ), p0.z⟩ := rfl

theorem computePoseOnCircle_orientation (p0 : Vec3) (off : ℝ) (c : Vec3) (θ : ℝ) :
    (computePoseOnCircle p0 off c θ).orientation =
      qnormalize (qmul
        (alignQuat (normalize3 (c - (computePoseOnCircle p0 off c θ).position)) refForward)
        (fromEulerZ (rollOffset θ))) := rfl

theorem computePoseOnCircle_dvec (p0 : Vec3) (off : ℝ) (c : Vec3) (θ : ℝ) :
    c - (computePoseOnCircle p0 off c θ).position =
      ⟨-(norm3 (p0 - c) * cos (off + θ)),
       -(norm3 (p0 - c) * sin (off + θ)), c.z - p0.z⟩ := by
  rw [computePoseOnCircle_position]
  ext <;> (simp only [Vec3.sub_def]; try ring)

/-- Abstract gaze-lock: for a target-minus-position vector `dv` that is not
purely vertical, the orientation built from the shortest-arc gaze rotation
composed with any roll about the local z axis maps the reference forward
axis to the unit vector along `dv`. -/
theorem gaze_roll_lock (dv : Vec3) (hxy : 0 < dv.x ^ 2 + dv.y ^ 2) (t : ℝ) :
    0 < norm3 dv ∧
    norm3 (qapply (qnormalize (qmul (alignQuat (normalize3 dv) refForward)
      (fromEulerZ t))) refForward) = 1 ∧
    norm3 dv • qapply (qnormalize (qmul (alignQuat (normalize3 dv) refForward)
      (fromEulerZ t))) refForward = dv := by
  have hsum : 0 < dv.x ^ 2 + dv.y ^ 2 + dv.z ^ 2 := by nlinarith [sq_nonneg dv.z]
  have hN : 0 < norm3 dv := by
    simp only [norm3]; exact sqrt_pos.mpr hsum
  have hN0 : norm3 dv ≠ 0 := ne_of_gt hN
  have hNsq : (norm3 dv) ^ 2 = dv.x ^ 2 + dv.y ^ 2 + dv.z ^ 2 := norm3_sq dv
  have hd_unit : (normalize3 dv).x ^ 2 + (normalize3 dv).y ^ 2 + (normalize3 dv).z ^ 2 = 1 := by
    simp only [normalize3, vec3_smul_def]
    field_simp
    linear_combination -hNsq
  have hdz : (normalize3 dv).z ≠ -1 := by
    simp only [normalize3, vec3_smul_def]
    intro hcon
    have h1 : dv.z = -(norm3 dv) := by
      field_simp at hcon
      linarith
    have h2 : dv.z ^ 2 = (norm3 dv) ^ 2 := by rw [h1]; ring
    rw [hNsq] at h2
    linarith
  have hgaze := qapply_gaze_roll (normalize3 dv) hd_unit hdz t
  refine ⟨hN, ?_, ?_⟩
  · rw [hgaze]
    simp only [norm3]
    rw [hd_unit, sqrt_one]
  · rw [hgaze]
    ext <;> (simp only [normalize3, vec3_smul_def]; field_simp)

/-- Every pose computed by `_compute_pose_on_circle` (for any session with
`P0 ≠ center` and any angle) is gaze-locked: its orientation carries the
reference forward axis onto the unit vector pointing from the pose position
to the center. -/
theorem pose_on_circle_gaze (p0 : Vec3) (c : Vec3) (off θ : ℝ) (hne : p0 ≠ c) :
    0 < norm3 (c - (computePoseOnCircle p0 off c θ).position) ∧
    norm3 (qapply (computePoseOnCircle p0 off c θ).orientation refForward) = 1 ∧
    norm3 (c - (computePoseOnCircle p0 off c θ).position) •
        qapply (computePoseOnCircle p0 off c θ).orientation refForward =
      c - (computePoseOnCircle p0 off c θ).position := by
  have hdv := computePoseOnCircle_dvec p0 off c θ
  rw [computePoseOnCircle_orientation, hdv]
  apply gaze_roll_lock
  dsimp only
  have hS := sumSq_pos p0 c hne
  have hr2 : (norm3 (p0 - c)) ^ 2 =
      (p0.x - c.x) ^ 2 + (p0.y - c.y) ^ 2 + (p0.z - c.z) ^ 2 := by
    rw [norm3_sq, Vec3.sub_def]
  have hsc := sin_sq_add_cos_sq (off + θ)
  nlinarith [hr2, hS, hsc]

/-! ## Claim theorems -/

/-- C2: for every call to `surround_and_lock` with `num_waypoints = N ≥ 2`,
the returned sequence has exactly `N - 1` poses, and the pose at list index
`k` (for each `0 ≤ k < N - 1`) is the one computed at angle
`2·π·(k+1)/N`, i.e. the poses are emitted in increasing order of the loop
index `i = k + 1 ∈ [1, N)`. -/
theorem waypoint_count_order (p0 : Vec3) (q0 : Quat) (c : Vec3) (n : ℤ) (hn : 2 ≤ n) :
    ((surround_and_lock p0 q0 c n).length : ℤ) = n - 1 ∧
    ∀ k : ℕ, (k : ℤ) < n - 1 →
      (surround_and_lock p0 q0 c n)[k]? =
        some (computePoseOnCircle p0 (computeInitialAngle p0 c) c
          (2 * π * ((k : ℝ) + 1) / (n : ℝ))) := by
  constructor
  · simp only [surround_and_lock, List.length_map, intRange_length]
    omega
  · intro k hk
    have hk' : k < (n - 1).toNat := by omega
    simp only [surround_and_lock]
    rw [List.getElem?_map, intRange_getElem? 1 n k hk', Option.map_some']
    have harg : ((1 + (k : ℤ) : ℤ) : ℝ) = (k : ℝ) + 1 := by push_cast; ring
    rw [harg]

/-- Witness for C2 at a concrete input. -/
theorem waypoint_count_order_witness :
    ((surround_and_lock ⟨1, 0, 0⟩ ⟨0, 0, 0, 1⟩ ⟨0, 0, 0⟩ 4).length : ℤ) = 4 - 1 :=
  (waypoint_count_order ⟨1, 0, 0⟩ ⟨0, 0, 0, 1⟩ ⟨0, 0, 0⟩ 4 (by norm_num)).1

/-- C9: with `num_waypoints` equal to `0` or `1`, `surround_and_lock`
returns the empty list; it is a total function, so no error is signaled. -/
theorem trivial_count_empty (p0 : Vec3) (q0 : Quat) (c : Vec3) (n : ℤ)
    (hn : n = 0 ∨ n = 1) : surround_and_lock p0 q0 c n = [] := by
  have h0 : (n - 1).toNat = 0 := by omega
  simp [surround_and_lock, intRange, h0]

/-- Witness for C9 at a concrete input. -/
theorem trivial_count_empty_witness :
    surround_and_lock ⟨0, 0, 0⟩ ⟨0, 0, 0, 1⟩ ⟨1, 0, 0⟩ 0 = [] :=
  trivial_count_empty ⟨0, 0, 0⟩ ⟨0, 0, 0, 1⟩ ⟨1, 0, 0⟩ 0 (Or.inl rfl)

/-- Counterexample to C4 as stated: at `num_waypoints = 1` the code does not
signal `InvalidArgument` (there is no validation or raise in
`surround_and_lock`); it returns the empty list normally. -/
theorem small_count_cex :
    surround_and_lock ⟨1, 0, 0⟩ ⟨0, 0, 0, 1⟩ ⟨0, 0, 0⟩ 1 = [] := by
  simp [surround_and_lock, intRange]

/-- C4 amended: for every `num_waypoints < 2` (including negative values)
`surround_and_lock` signals nothing and returns the empty sequence. -/
theorem small_count_empty (p0 : Vec3) (q0 : Quat) (c : Vec3) (n : ℤ)
    (hn : n < 2) : surround_and_lock p0 q0 c n = [] := by
  have h0 : (n - 1).toNat = 0 := by omega
  simp [surround_and_lock, intRange, h0]

/-- Witness for the amended C4 at a concrete input. -/
theorem small_count_empty_witness :
    surround_and_lock ⟨0, 1, 0⟩ ⟨0, 0, 0, 1⟩ ⟨0, 0, 0⟩ (-3) = [] :=
  small_count_empty ⟨0, 1, 0⟩ ⟨0, 0, 0, 1⟩ ⟨0, 0, 0⟩ (-3) (by norm_num)

/-- Counterexample to C3 as stated: with the target equal to the starting
position, `surround_and_lock` does not raise `DegenerateGeometry` and does
not return an empty sequence — it still produces waypoints. -/
theorem degenerate_target_cex :
    surround_and_lock ⟨1, 0, 0⟩ ⟨0, 0, 0, 1⟩ ⟨1, 0, 0⟩ 2 ≠ [] := by
  have hlen : (surround_and_lock ⟨1, 0, 0⟩ ⟨0, 0, 0, 1⟩ ⟨1, 0, 0⟩ 2).length = 1 := by
    simp only [surround_and_lock, List.length_map, intRange_length]
    norm_num
  intro h
  rw [h] at hlen
  simp at hlen

/-- C3 amended: when the target coincides with the starting position the
code performs no degeneracy check and signals nothing: it returns the full
`N - 1` waypoints, all positioned at the center itself (the radius is zero;
in the implementation the orientation arithmetic then divides by zero). -/
theorem degenerate_target_behavior (q0 : Quat) (c : Vec3) (n : ℤ) (hn : 2 ≤ n) :
    ((surround_and_lock c q0 c n).length : ℤ) = n - 1 ∧
    ∀ wp ∈ surround_and_lock c q0 c n, wp.position = c := by
  constructor
  · simp only [surround_and_lock, List.length_map, intRange_length]
    omega
  · intro wp hwp
    simp only [surround_and_lock, List.mem_map] at hwp
    obtain ⟨i, hi, rfl⟩ := hwp
    have hr : norm3 (c - c) = 0 := by
      simp [norm3, Vec3.sub_def]
    rw [computePoseOnCircle_position, hr]
    ext <;> simp

/-- Witness for the amended C3 at a concrete input. -/
theorem degenerate_target_behavior_witness :
    ((surround_and_lock ⟨1, 0, 0⟩ ⟨0, 0, 0, 1⟩ ⟨1, 0, 0⟩ 3).length : ℤ) = 3 - 1 :=
  (degenerate_target_behavior ⟨0, 0, 0, 1⟩ ⟨1, 0, 0⟩ 3 (by norm_num)).1

/-- The discovery loop makes at most `10001` subscription attempts (for any
behavior of the `/tf_static` oracle) and, whenever no frame with parent
`link_eef` has been seen by exhaustion, it returns `link_eef` itself. -/
theorem cameraLinkLoop_spec (polls : ℕ → String) :
    ∀ m counter, 10001 - counter ≤ m → counter ≤ 10001 →
      (cameraLinkLoop polls counter).2 ≤ 10001 ∧
      ((∀ i, i ≤ 10001 → polls i = "") → (cameraLinkLoop polls counter).1 = "link_eef") := by
  intro m
  induction m with
  | zero =>
    intro counter hm hc
    have hcc : counter = 10001 := by omega
    subst hcc
    rw [cameraLinkLoop]
    by_cases hp : polls 10001 ≠ ""
    · rw [if_pos hp]
      exact ⟨le_refl _, fun hall => absurd (hall 10001 (le_refl _)) hp⟩
    · rw [if_neg hp, dif_neg (by omega : ¬(10001 ≤ 10000))]
      exact ⟨le_refl _, fun _ => rfl⟩
  | succ m ih =>
    intro counter hm hc
    rw [cameraLinkLoop]
    by_cases hp : polls counter ≠ ""
    · rw [if_pos hp]
      exact ⟨hc, fun hall => absurd (hall counter hc) hp⟩
    · rw [if_neg hp]
      by_cases h10 : counter ≤ 10000
      · rw [dif_pos h10]
        exact ih (counter + 1) (by omega) (by omega)
      · rw [dif_neg h10]
        exact ⟨hc, fun _ => rfl⟩

/-- C7: camera-frame discovery is bounded (at most `10001` attempts) and on
exhaustion (no static transform with parent `link_eef` ever observed) it
falls back to `link_eef`; the constructor's loop then terminates normally. -/
theorem camera_link_fallback (polls : ℕ → String) :
    (initCameraLink polls).2 ≤ 10001 ∧
    ((∀ i, i ≤ 10001 → polls i = "") → (initCameraLink polls).1 = "link_eef") :=
  cameraLinkLoop_spec polls 10001 0 (by omega) (by omega)

/-- Witness for C7 at a concrete oracle (no frame ever discovered). -/
theorem camera_link_fallback_witness :
    (initCameraLink (fun _ => "")).2 ≤ 10001 ∧
    (initCameraLink (fun _ => "")).1 = "link_eef" :=
  ⟨(camera_link_fallback (fun _ => "")).1,
   (camera_link_fallback (fun _ => "")).2 (fun _ _ => rfl)⟩

/-- C6 amended: the roll-correction angle is continuous at `angle = π`
(both branches evaluate to `π/2` there), and on the branch `angle > π` the
formula is `2π`-periodic; as a rotation it is NOT `2π`-periodic in general
(see the counterexample), because for `angle ≤ π` the two branches differ
by `π·(1 + cos angle)`, which is not a multiple of `2π`. -/
theorem roll_continuity :
    ContinuousAt rollOffset π ∧ rollOffset π = π / 2 ∧
    ∀ a, π < a → rollOffset (a + 2 * π) = rollOffset a := by
  refine ⟨?_, ?_, ?_⟩
  · have hfun : rollOffset = fun a => if a ≤ π then -(π / 2) * cos a
        else (π / 2) * cos a + π := rfl
    have hc : Continuous rollOffset := by
      rw [hfun]
      apply Continuous.if_le
      · exact continuous_const.mul continuous_cos
      · exact (continuous_const.mul continuous_cos).add continuous_const
      · exact continuous_id
      · exact continuous_const
      · intro a ha
        rw [ha, cos_pi]
        ring
    exact hc.continuousAt
  · rw [rollOffset, if_pos (le_refl π), cos_pi]
    ring
  · intro a ha
    have h1 : ¬a ≤ π := not_le.mpr ha
    have h2 : ¬a + 2 * π ≤ π := by nlinarith [pi_pos]
    rw [rollOffset, rollOffset, if_neg h1, if_neg h2, cos_add_two_pi]

/-- Witness for C6's amended statement at a concrete angle on the `> π`
branch. -/
theorem roll_continuity_witness : rollOffset (2 * π + 2 * π) = rollOffset (2 * π) :=
  roll_continuity.2.2 (2 * π) (by nlinarith [pi_pos])

/-- Counterexample to C6's periodicity part as stated: at `angle = π/2` the
roll corrections for `angle` and `angle + 2π` denote different rotations
about the local z axis — they act differently on the vector `(1,0,0)`. -/
theorem roll_periodicity_cex :
    qapply (fromEulerZ (rollOffset (π / 2 + 2 * π))) ⟨1, 0, 0⟩ ≠
      qapply (fromEulerZ (rollOffset (π / 2))) ⟨1, 0, 0⟩ := by
  have hpi := pi_pos
  have h1 : rollOffset (π / 2) = 0 := by
    rw [rollOffset, if_pos (by linarith : π / 2 ≤ π), cos_pi_div_two]
    ring
  have h2 : rollOffset (π / 2 + 2 * π) = π := by
    rw [rollOffset, if_neg (by nlinarith : ¬π / 2 + 2 * π ≤ π), cos_add_two_pi,
      cos_pi_div_two]
    ring
  rw [h1, h2]
  have e1 : qapply (fromEulerZ 0) ⟨1, 0, 0⟩ = ⟨1, 0, 0⟩ := by
    simp only [qapply, fromEulerZ, qnormSq, qapplyRaw, qmul, qconj, pureQ, qvec,
      vec3_smul_def]
    norm_num
  have e2 : qapply (fromEulerZ π) ⟨1, 0, 0⟩ = ⟨-1, 0, 0⟩ := by
    simp only [qapply, fromEulerZ, qnormSq, qapplyRaw, qmul, qconj, pureQ, qvec,
      vec3_smul_def]
    norm_num [sin_pi_div_two, cos_pi_div_two]
  rw [e1, e2]
  intro h
  have hx := congrArg Vec3.x h
  simp at hx
  norm_num at hx

/-- C8: `_gaze_at` depends only on the normalized direction from the camera
position to the center: two calls whose difference vectors are positive
scalar multiples of one another return the same rotation, and the
`initial_y` argument has no effect at all. -/
theorem gaze_direction_only (c1 p1 c2 p2 y1 y2 : Vec3) (k : ℝ) (hk : 0 < k)
    (hprop : c2 - p2 = k • (c1 - p1)) (hne : c1 ≠ p1) :
    gaze_at c2 p2 y2 = gaze_at c1 p1 y1 := by
  have hk0 : k ≠ 0 := ne_of_gt hk
  have hN : 0 < norm3 (c1 - p1) := norm3_pos c1 p1 hne
  have hN0 : norm3 (c1 - p1) ≠ 0 := ne_of_gt hN
  rw [gaze_at, gaze_at, hprop]
  congr 1
  have hnormk : norm3 (k • (c1 - p1)) = k * norm3 (c1 - p1) := by
    simp only [norm3, vec3_smul_def]
    rw [show (k * (c1 - p1).x) ^ 2 + (k * (c1 - p1).y) ^ 2 + (k * (c1 - p1).z) ^ 2 =
        k ^ 2 * ((c1 - p1).x ^ 2 + (c1 - p1).y ^ 2 + (c1 - p1).z ^ 2) from by ring,
      sqrt_mul (sq_nonneg k), sqrt_sq hk.le]
  rw [normalize3, normalize3, hnormk]
  ext <;> (simp only [vec3_smul_def]; field_simp; ring)

/-- Witness for C8 at concrete inputs whose difference vectors are positive
multiples and whose `initial_y` arguments differ. -/
theorem gaze_direction_only_witness :
    gaze_at ⟨2, 0, 0⟩ ⟨0, 0, 0⟩ ⟨5, 5, 5⟩ = gaze_at ⟨1, 0, 0⟩ ⟨0, 0, 0⟩ ⟨0, 1, 0⟩ :=
  gaze_direction_only ⟨1, 0, 0⟩ ⟨0, 0, 0⟩ ⟨2, 0, 0⟩ ⟨0, 0, 0⟩ ⟨0, 1, 0⟩ ⟨5, 5, 5⟩ 2
    (by norm_num)
    (by ext <;> (simp only [Vec3.sub_def, vec3_smul_def]; norm_num))
    (by intro h; exact one_ne_zero (congrArg Vec3.x h))

/-- C10: `get_current_pose(frame)` always expresses the result in the fixed
base frame `link_base`: the result is exactly the transform looked up with
target `link_base` and source `frame`, so it depends only on that row of the
lookup oracle — the `frame` argument never selects the reference frame. -/
theorem current_pose_base_frame (lookup lookup' : String → String → Transform)
    (frame : String) (h : lookup baseLinkName frame = lookup' baseLinkName frame) :
    getCurrentPose lookup frame = getCurrentPose lookup' frame ∧
    (getCurrentPose lookup frame).position = (lookup "link_base" frame).translation ∧
    (getCurrentPose lookup frame).orientation = (lookup "link_base" frame).rotation := by
  refine ⟨?_, ?_, ?_⟩
  · simp only [getCurrentPose, h]
  · ext <;> rfl
  · ext <;> rfl

/-- Witness for C10: two oracles that agree on the `link_base` row but
disagree elsewhere give the same pose. -/
theorem current_pose_base_frame_witness :
    getCurrentPose (fun _ _ => ⟨⟨1, 2, 3⟩, ⟨0, 0, 0, 1⟩⟩) "camera_link" =
      getCurrentPose
        (fun t _ => if t = "link_eef" then ⟨⟨9, 9, 9⟩, ⟨1, 0, 0, 0⟩⟩
          else ⟨⟨1, 2, 3⟩, ⟨0, 0, 0, 1⟩⟩) "camera_link" :=
  (current_pose_base_frame _ _ "camera_link" (by rfl)).1

/-- Every pose of the circle keeps the horizontal (xy-plane) distance to the
center equal to the session radius `|P0 - center|` (the full 3D distance). -/
theorem computePoseOnCircle_planar (p0 : Vec3) (off : ℝ) (c : Vec3) (θ : ℝ) :
    norm3 ⟨(computePoseOnCircle p0 off c θ).position.x - c.x,
           (computePoseOnCircle p0 off c θ).position.y - c.y, 0⟩ = norm3 (p0 - c) := by
  have hsc := sin_sq_add_cos_sq (off + θ)
  have h1 : (norm3 ⟨(computePoseOnCircle p0 off c θ).position.x - c.x,
      (computePoseOnCircle p0 off c θ).position.y - c.y, 0⟩) ^ 2 =
      (norm3 (p0 - c)) ^ 2 := by
    rw [norm3_sq, computePoseOnCircle_position]
    try dsimp only
    linear_combination (norm3 (p0 - c)) ^ 2 * hsc
  calc norm3 ⟨(computePoseOnCircle p0 off c θ).position.x - c.x,
      (computePoseOnCircle p0 off c θ).position.y - c.y, 0⟩
      = sqrt ((norm3 ⟨(computePoseOnCircle p0 off c θ).position.x - c.x,
          (computePoseOnCircle p0 off c θ).position.y - c.y, 0⟩) ^ 2) :=
        (sqrt_sq (norm3_nonneg _)).symm
    _ = sqrt ((norm3 (p0 - c)) ^ 2) := by rw [h1]
    _ = norm3 (p0 - c) := sqrt_sq (norm3_nonneg _)

/-- Counterexample to C1 as stated: for the session starting at
`P0 = (1,0,1)` around `center = (0,0,0)` with `N = 4`, the first returned
waypoint (a member of the `surround_and_lock` output) has 3D distance
`sqrt 3` to the center, while `|P0 - center| = sqrt 2`. -/
theorem orbit_radius_3d_cex :
    (computePoseOnCircle ⟨1, 0, 1⟩ (computeInitialAngle ⟨1, 0, 1⟩ ⟨0, 0, 0⟩) ⟨0, 0, 0⟩
        (2 * π * ((1 : ℤ) : ℝ) / ((4 : ℤ) : ℝ))) ∈
      surround_and_lock ⟨1, 0, 1⟩ ⟨0, 0, 0, 1⟩ ⟨0, 0, 0⟩ 4 ∧
    norm3 ((computePoseOnCircle ⟨1, 0, 1⟩ (computeInitialAngle ⟨1, 0, 1⟩ ⟨0, 0, 0⟩) ⟨0, 0, 0⟩
        (2 * π * ((1 : ℤ) : ℝ) / ((4 : ℤ) : ℝ))).position - ⟨0, 0, 0⟩) ≠
      norm3 ((⟨1, 0, 1⟩ : Vec3) - ⟨0, 0, 0⟩) := by
  constructor
  · simp only [surround_and_lock]
    rw [List.mem_map]
    exact ⟨1, by decide, rfl⟩
  · have hoff : computeInitialAngle ⟨1, 0, 1⟩ ⟨0, 0, 0⟩ = 0 := by
      show atan2 ((0:ℝ) - 0) ((1:ℝ) - 0) = 0
      norm_num [atan2, arctan_zero]
    have hang : 2 * π * ((1 : ℤ) : ℝ) / ((4 : ℤ) : ℝ) = π / 2 := by push_cast; ring
    rw [computePoseOnCircle_position, hoff, hang]
    intro h
    have h2 := congrArg (fun t : ℝ => t ^ 2) h
    simp only at h2
    rw [norm3_sq, norm3_sq] at h2
    simp only [Vec3.sub_def] at h2
    try dsimp only at h2
    simp only [zero_add, cos_pi_div_two, sin_pi_div_two] at h2
    have hr2 : (norm3 (⟨(1:ℝ) - 0, (0:ℝ) - 0, (1:ℝ) - 0⟩ : Vec3)) ^ 2 = 2 := by
      rw [norm3_sq]
      norm_num
    nlinarith [hr2, h2]

/-- C1 amended: for every waypoint returned by `surround_and_lock`, the
HORIZONTAL distance from the waypoint position to the center equals the 3D
distance `|P0 - center|` captured at session start.  (The full 3D distance is
`sqrt(|P0 - center|^2 + (P0.z - center.z)^2)`, which equals `|P0 - center|`
only when `P0.z = center.z` — see the counterexample.) -/
theorem orbit_radius_planar (p0 : Vec3) (q0 : Quat) (c : Vec3) (n : ℤ) (wp : Pose)
    (hwp : wp ∈ surround_and_lock p0 q0 c n) :
    norm3 ⟨wp.position.x - c.x, wp.position.y - c.y, 0⟩ = norm3 (p0 - c) := by
  simp only [surround_and_lock, List.mem_map] at hwp
  obtain ⟨i, hi, rfl⟩ := hwp
  exact computePoseOnCircle_planar p0 _ c _

/-- Witness for the amended C1 at a concrete session (`P0 = (1,0,1)`,
`center = (0,0,0)`, `N = 4`, first waypoint). -/
theorem orbit_radius_planar_witness :
    norm3 ⟨(computePoseOnCircle ⟨1, 0, 1⟩ (computeInitialAngle ⟨1, 0, 1⟩ ⟨0, 0, 0⟩) ⟨0, 0, 0⟩
        (2 * π * ((1 : ℤ) : ℝ) / ((4 : ℤ) : ℝ))).position.x - 0,
      (computePoseOnCircle ⟨1, 0, 1⟩ (computeInitialAngle ⟨1, 0, 1⟩ ⟨0, 0, 0⟩) ⟨0, 0, 0⟩
        (2 * π * ((1 : ℤ) : ℝ) / ((4 : ℤ) : ℝ))).position.y - 0, 0⟩ =
      norm3 ((⟨1, 0, 1⟩ : Vec3) - ⟨0, 0, 0⟩) :=
  orbit_radius_planar ⟨1, 0, 1⟩ ⟨0, 0, 0, 1⟩ ⟨0, 0, 0⟩ 4 _ (by
    simp only [surround_and_lock]
    rw [List.mem_map]
    exact ⟨1, by decide, rfl⟩)

/-- C5: for every waypoint generated by `surround_and_lock` from a
non-degenerate session (`P0 ≠ center`), applying the waypoint's orientation
(gaze rotation composed with the roll correction, gaze first) to the
reference forward axis `(0,0,1)` yields a unit vector parallel (with
positive factor `1 / |target - position|`) to `target - position`. -/
theorem gaze_lock_waypoints (p0 : Vec3) (q0 : Quat) (c : Vec3) (n : ℤ) (wp : Pose)
    (hne : p0 ≠ c) (hwp : wp ∈ surround_and_lock p0 q0 c n) :
    0 < norm3 (c - wp.position) ∧
    norm3 (qapply wp.orientation refForward) = 1 ∧
    norm3 (c - wp.position) • qapply wp.orientation refForward = c - wp.position := by
  simp only [surround_and_lock, List.mem_map] at hwp
  obtain ⟨i, hi, rfl⟩ := hwp
  exact pose_on_circle_gaze p0 c _ _ hne

/-- Witness for C5 at a concrete session (`P0 = (1,0,0)`,
`center = (0,0,0)`, `N = 2`, the single returned waypoint). -/
theorem gaze_lock_waypoints_witness :
    0 < norm3 ((⟨0, 0, 0⟩ : Vec3) -
      (computePoseOnCircle ⟨1, 0, 0⟩ (computeInitialAngle ⟨1, 0, 0⟩ ⟨0, 0, 0⟩) ⟨0, 0, 0⟩
        (2 * π * ((1 : ℤ) : ℝ) / ((2 : ℤ) : ℝ))).position) ∧
    norm3 (qapply (computePoseOnCircle ⟨1, 0, 0⟩ (computeInitialAngle ⟨1, 0, 0⟩ ⟨0, 0, 0⟩)
        ⟨0, 0, 0⟩ (2 * π * ((1 : ℤ) : ℝ) / ((2 : ℤ) : ℝ))).orientation refForward) = 1 ∧
    norm3 ((⟨0, 0, 0⟩ : Vec3) -
        (computePoseOnCircle ⟨1, 0, 0⟩ (computeInitialAngle ⟨1, 0, 0⟩ ⟨0, 0, 0⟩) ⟨0, 0, 0⟩
          (2 * π * ((1 : ℤ) : ℝ) / ((2 : ℤ) : ℝ))).position) •
        qapply (computePoseOnCircle ⟨1, 0, 0⟩ (computeInitialAngle ⟨1, 0, 0⟩ ⟨0, 0, 0⟩)
          ⟨0, 0, 0⟩ (2 * π * ((1 : ℤ) : ℝ) / ((2 : ℤ) : ℝ))).orientation refForward =
      (⟨0, 0, 0⟩ : Vec3) -
        (computePoseOnCircle ⟨1, 0, 0⟩ (computeInitialAngle ⟨1, 0, 0⟩ ⟨0, 0, 0⟩) ⟨0, 0, 0⟩
          (2 * π * ((1 : ℤ) : ℝ) / ((2 : ℤ) : ℝ))).position :=
  gaze_lock_waypoints ⟨1, 0, 0⟩ ⟨0, 0, 0, 1⟩ ⟨0, 0, 0⟩ 2 _
    (by intro h; exact one_ne_zero (congrArg Vec3.x h))
    (by
      simp only [surround_and_lock]
      rw [List.mem_map]
      exact ⟨1, by decide, rfl⟩)

end XArmPlanner
